import Mathlib

/-!
Verification of the nufmt core formatting engine.

The source is a single-pass, streaming re-indentation engine
(`format_nu_buffered` in src/lib.rs) together with an in-memory wrapper
(`format_nu`) and an indentation renderer (`indent_buffered`).

The embedding below models bytes as natural numbers (the relevant byte
values: 10 = newline, 32 = space, 34 = double quote, 35 = hash,
44 = comma, 58 = colon, 91 = left bracket, 92 = backslash,
93 = right bracket, 123 = left brace, 125 = right brace).
Strings are modelled as their UTF-8 byte lists.  The engine state holds
the five mutable locals of the Rust loop; `step` is one iteration of the
`for char in reader.bytes()` loop, returning the new state and the bytes
written during that iteration, in order.
-/

/-- The `Indentation` enum of the source: a default two-space unit or a
caller-supplied custom unit string (modelled by its byte list). -/
inductive Indentation where
  | Default : Indentation
  | Custom : List Nat → Indentation
deriving DecidableEq, Repr

/-- The five mutable locals of `format_nu_buffered`. -/
structure FmtState where
  escaped : Bool
  in_string : Bool
  indent_level : Nat
  newline_requested : Bool
  in_comment : Bool
deriving DecidableEq, Repr

/-- The initial state of the locals at the top of `format_nu_buffered`. -/
def initState : FmtState :=
  { escaped := false, in_string := false, indent_level := 0,
    newline_requested := false, in_comment := false }

/-- One repetition unit of the configured indentation. -/
def indentUnit : Indentation → List Nat
  | Indentation.Default => [32, 32]
  | Indentation.Custom u => u

/-- `indent_buffered` of the source: writes `level` repetitions of the
configured unit. -/
def indent_buffered (cfg : Indentation) : Nat → List Nat
  | 0 => []
  | n + 1 => indentUnit cfg ++ indent_buffered cfg n

/-- The synthetic newline-plus-indent block written when a pending
newline is honoured: a newline byte followed by the rendered indent at
the given level, guarded by the `newline_requested` flag of the state
the block is emitted from. -/
def pendNL (cfg : Indentation) (s : FmtState) (lvl : Nat) : List Nat :=
  if s.newline_requested = true then 10 :: indent_buffered cfg lvl else []

/-- The `if in_string` branch of the loop body: every byte is echoed; an
unescaped backslash arms the escape flag for exactly the next byte; an
unescaped double quote leaves the string. -/
def stringStep (s : FmtState) (c : Nat) : FmtState × List Nat :=
  if c = 34 ∧ s.escaped = false then
    ({ s with in_string := false, escaped := false }, [c])
  else if c = 92 ∧ s.escaped = false then
    ({ s with escaped := true }, [c])
  else
    ({ s with escaped := false }, [c])

/-- The `else` (normal-mode) branch of the loop body.  The `match` on the
byte runs first (closers write their own newline-plus-indent there, and
the colon writes the colon and a space there), then the pending-newline
block guarded by `newline_requested`, then the echo of the byte unless
`auto_push` was cleared, and finally `newline_requested` is overwritten
with the current byte's request.  A raw newline is `continue`d over:
no output, no state change. -/
def normalStep (cfg : Indentation) (s : FmtState) (c : Nat) : FmtState × List Nat :=
  if c = 10 then (s, [])
  else if c = 35 then
    ({ s with in_comment := true, newline_requested := false },
      pendNL cfg s s.indent_level ++ [c])
  else if c = 34 then
    ({ s with in_string := true, newline_requested := false },
      pendNL cfg s s.indent_level ++ [c])
  else if c = 91 ∨ c = 123 then
    ({ s with indent_level := s.indent_level + 1, newline_requested := true },
      pendNL cfg s (s.indent_level + 1) ++ [c])
  else if c = 93 ∨ c = 125 then
    ({ s with indent_level := s.indent_level - 1, newline_requested := false },
      (if s.newline_requested = true then []
       else 10 :: indent_buffered cfg (s.indent_level - 1))
        ++ pendNL cfg s (s.indent_level - 1) ++ [c])
  else if c = 58 then
    ({ s with newline_requested := false },
      [58, 32] ++ pendNL cfg s s.indent_level)
  else if c = 44 then
    ({ s with newline_requested := true },
      pendNL cfg s s.indent_level ++ [c])
  else
    ({ s with newline_requested := false },
      pendNL cfg s s.indent_level ++ [c])

/-- The string-or-normal part of the loop body (everything after the
comment handler). -/
def stepSN (cfg : Indentation) (s : FmtState) (c : Nat) : FmtState × List Nat :=
  if s.in_string = true then stringStep s c else normalStep cfg s c

/-- One full iteration of the loop of `format_nu_buffered` on byte `c`.
If the comment flag is set, a non-newline byte is echoed and the
iteration ends (`continue`); a newline byte is echoed, the comment flag
is cleared, and control falls through into the string-or-normal
handling of that same newline byte — exactly as in the source, where the
newline arm of the comment handler does not `continue`. -/
def step (cfg : Indentation) (s : FmtState) (c : Nat) : FmtState × List Nat :=
  if s.in_comment = true then
    if c = 10 then
      ((stepSN cfg { s with in_comment := false } c).1,
        10 :: (stepSN cfg { s with in_comment := false } c).2)
    else (s, [c])
  else stepSN cfg s c

/-- Running the loop over a whole byte list from a given state,
collecting the bytes written. -/
def runFrom (cfg : Indentation) : FmtState → List Nat → FmtState × List Nat
  | s, [] => (s, [])
  | s, c :: cs =>
    ((runFrom cfg (step cfg s c).1 cs).1,
      (step cfg s c).2 ++ (runFrom cfg (step cfg s c).1 cs).2)

/-- `format_nu` of the source: run the engine over an in-memory buffer
starting from fresh state and return the written bytes. -/
def format_nu (nu : List Nat) (cfg : Indentation) : List Nat :=
  (runFrom cfg initState nu).2

/-- `format_nu_buffered` of the source, with the fallible reader made
explicit: the input is a list of read results; an `Except.error` models
a failing read, which aborts the pass at once (the `?` on `char?`),
surfacing the error as-is and leaving in the output whatever was
already written. -/
def format_nu_buffered {E : Type} (cfg : Indentation) :
    FmtState → List (Except E Nat) → List Nat × Option E
  | _, [] => ([], none)
  | _, Except.error e :: _ => ([], some e)
  | s, Except.ok c :: rest =>
    ((step cfg s c).2 ++ (format_nu_buffered cfg (step cfg s c).1 rest).1,
      (format_nu_buffered cfg (step cfg s c).1 rest).2)

@[simp] theorem runFrom_nil (cfg : Indentation) (s : FmtState) :
    runFrom cfg s [] = (s, []) := rfl

@[simp] theorem runFrom_cons (cfg : Indentation) (s : FmtState) (c : Nat) (cs : List Nat) :
    runFrom cfg s (c :: cs) =
      ((runFrom cfg (step cfg s c).1 cs).1,
        (step cfg s c).2 ++ (runFrom cfg (step cfg s c).1 cs).2) := rfl

/-- Interior of a string literal: starting from a state inside a string,
every byte of the list keeps the engine inside the string (so the list
contains no unescaped terminating quote). -/
def stringInterior (s : FmtState) : List Nat → Bool
  | [] => true
  | c :: cs =>
    (stringStep s c).1.in_string && stringInterior (stringStep s c).1 cs

theorem stringStep_out (s : FmtState) (c : Nat) : (stringStep s c).2 = [c] := by
  unfold stringStep
  split
  · rfl
  · split <;> rfl

theorem stringStep_in_comment (s : FmtState) (c : Nat) :
    (stringStep s c).1.in_comment = s.in_comment := by
  unfold stringStep
  split
  · rfl
  · split <;> rfl

theorem stringStep_indent (s : FmtState) (c : Nat) :
    (stringStep s c).1.indent_level = s.indent_level := by
  unfold stringStep
  split
  · rfl
  · split <;> rfl

theorem step_of_in_string (cfg : Indentation) (s : FmtState) (c : Nat)
    (h1 : s.in_string = true) (h2 : s.in_comment = false) :
    step cfg s c = stringStep s c := by
  unfold step stepSN
  rw [h2, h1]
  simp

theorem stringStep_exit (s : FmtState) (c : Nat) (h1 : s.in_string = true) :
    (stringStep s c).1.in_string = false ↔ (c = 34 ∧ s.escaped = false) := by
  unfold stringStep
  split
  · simp_all
  · split <;> simp_all

theorem stringStep_escape (s : FmtState) (c : Nat) :
    (stringStep s c).1.escaped = true ↔ (c = 92 ∧ s.escaped = false) := by
  unfold stringStep
  split
  · simp_all
  · split <;> simp_all

theorem runFrom_stringInterior (cfg : Indentation) :
    ∀ (cs : List Nat) (s : FmtState), s.in_string = true → s.in_comment = false →
      stringInterior s cs = true → (runFrom cfg s cs).2 = cs := by
  intro cs
  induction cs with
  | nil => intro s _ _ _; rfl
  | cons c cs ih =>
    intro s h1 h2 hint
    unfold stringInterior at hint
    rw [Bool.and_eq_true] at hint
    simp only [runFrom_cons, step_of_in_string cfg s c h1 h2, stringStep_out]
    rw [ih (stringStep s c).1 hint.1 (by rw [stringStep_in_comment]; exact h2) hint.2]
    rfl

/-- Claim C1.  The claim states that an opener immediately followed by
its matching closer renders compactly, with the two bytes adjacent in
the output (as the expected output of the `array_of_object` test of the
source demands).  The code instead honours the pending newline requested
by the opener before echoing the closer: formatting the two-byte input
`\x7b\x7d` yields `\x7b`, a newline, `\x7d` — the opener and closer are
never adjacent.  This evaluates the code at the failing input: byte 123
is the opening brace, 125 the closing brace, and a newline byte 10 is
synthesized between them (and likewise for brackets 91, 93). -/
theorem c1_empty_container_not_compact :
    format_nu [123, 125] Indentation.Default = [123, 10, 125] ∧
    format_nu [91, 93] Indentation.Default = [91, 10, 93] := by decide

/-- Claim C2.  The claim states that every raw whitespace byte (space,
tab, or newline) met in normal mode is discarded, and in particular that
formatting three spaces followed by the digit zero yields just the
digit.  In the code only the raw newline arm is live (the arm dropping
spaces and tabs is commented out), so spaces (32) and tabs (9) fall to
the catch-all arm and are echoed: the three leading spaces survive into
the output, and a tab survives as well; only the raw newline is
discarded.  This evaluates the code at the failing input. -/
theorem c2_spaces_not_discarded :
    format_nu [32, 32, 32, 48] Indentation.Default = [32, 32, 32, 48] ∧
    format_nu [9, 48] Indentation.Default = [9, 48] ∧
    format_nu [10, 48] Indentation.Default = [48] := by decide

/-- Claim C3.  The claim states that formatting is idempotent.  It is
not: formatting the three-byte input `[1]` yields a bracket, newline,
two indent spaces, the digit, newline, bracket; formatting that output
again re-echoes the two indent spaces (spaces are not discarded) after
the synthesized indent, doubling the indentation.  This evaluates the
code at the failing input. -/
theorem c3_not_idempotent :
    format_nu (format_nu [91, 49, 93] Indentation.Default) Indentation.Default
      ≠ format_nu [91, 49, 93] Indentation.Default := by decide

/-- Claim C4.  String literal content is preserved byte-for-byte: while
the engine is inside a string, every byte is echoed verbatim and alone
(nothing synthetic is inserted), the escape flag is armed exactly by an
unescaped backslash (byte 92), the string ends exactly on an unescaped
double quote (byte 34) with the quote echoed either way, and running the
engine over any string-interior byte list reproduces it unchanged and
uninterrupted. -/
theorem c4_string_preservation (cfg : Indentation) :
    (∀ (s : FmtState) (c : Nat), s.in_string = true → s.in_comment = false →
       (step cfg s c).2 = [c] ∧
       ((step cfg s c).1.in_string = false ↔ (c = 34 ∧ s.escaped = false)) ∧
       ((step cfg s c).1.escaped = true ↔ (c = 92 ∧ s.escaped = false))) ∧
    (∀ (s : FmtState) (cs : List Nat), s.in_string = true → s.in_comment = false →
       stringInterior s cs = true → (runFrom cfg s cs).2 = cs) := by
  constructor
  · intro s c h1 h2
    rw [step_of_in_string cfg s c h1 h2]
    exact ⟨stringStep_out s c, stringStep_exit s c h1, stringStep_escape s c⟩
  · intro s cs h1 h2 hint
    exact runFrom_stringInterior cfg cs s h1 h2 hint

/-- Witness for C4 at a concrete input: from a state inside a string,
the two interior bytes 104 and 105 are reproduced exactly. -/
theorem c4_string_preservation_witness :
    (runFrom Indentation.Default
      { escaped := false, in_string := true, indent_level := 0,
        newline_requested := false, in_comment := false } [104, 105]).2
      = [104, 105] :=
  (c4_string_preservation Indentation.Default).2
    { escaped := false, in_string := true, indent_level := 0,
      newline_requested := false, in_comment := false }
    [104, 105] rfl rfl (by decide)

theorem runFrom_append (cfg : Indentation) :
    ∀ (a b : List Nat) (s : FmtState),
      runFrom cfg s (a ++ b) =
        ((runFrom cfg (runFrom cfg s a).1 b).1,
          (runFrom cfg s a).2 ++ (runFrom cfg (runFrom cfg s a).1 b).2) := by
  intro a
  induction a with
  | nil => intro b s; simp
  | cons c a ih =>
    intro b s
    simp only [List.cons_append, runFrom_cons, ih]
    simp [List.append_assoc]

theorem step_comment_echo (cfg : Indentation) (s : FmtState) (c : Nat)
    (h : s.in_comment = true) (hc : c ≠ 10) : step cfg s c = (s, [c]) := by
  unfold step
  rw [h]
  simp [hc]

theorem runFrom_comment (cfg : Indentation) :
    ∀ (cs : List Nat) (s : FmtState), s.in_comment = true → 10 ∉ cs →
      runFrom cfg s cs = (s, cs) := by
  intro cs
  induction cs with
  | nil => intro s _ _; rfl
  | cons c cs ih =>
    intro s h hmem
    rw [List.mem_cons, not_or] at hmem
    rw [runFrom_cons, step_comment_echo cfg s c h (fun hc => hmem.1 hc.symm)]
    rw [ih s h hmem.2]
    rfl

theorem step_comment_newline (cfg : Indentation) (s : FmtState)
    (h : s.in_comment = true) (h2 : s.in_string = false) :
    step cfg s 10 = ({ s with in_comment := false }, [10]) := by
  unfold step stepSN normalStep
  rw [h]
  simp [h2]

theorem step_hash (cfg : Indentation) (s : FmtState)
    (h1 : s.in_string = false) (h2 : s.in_comment = false) :
    step cfg s 35 =
      ({ s with in_comment := true, newline_requested := false },
        pendNL cfg s s.indent_level ++ [35]) := by
  unfold step stepSN normalStep
  rw [h1, h2]
  simp

/-- Claim C5.  Comment content is preserved byte-for-byte: from any
normal-mode state, a hash byte (35) followed by newline-free content
and a terminating newline byte (10) is reproduced exactly in the output
(preceded only by a possibly pending synthetic newline honoured before
the hash), and after the terminating newline the engine is back in
normal mode, at the same nesting depth.  Without a terminating newline
the run from the hash onwards is likewise reproduced exactly. -/
theorem c5_comment_preservation (cfg : Indentation) (s : FmtState) (cs : List Nat)
    (h1 : s.in_string = false) (h2 : s.in_comment = false) (h3 : 10 ∉ cs) :
    (runFrom cfg s (35 :: (cs ++ [10]))).2
        = pendNL cfg s s.indent_level ++ 35 :: (cs ++ [10]) ∧
    (runFrom cfg s (35 :: (cs ++ [10]))).1.in_comment = false ∧
    (runFrom cfg s (35 :: (cs ++ [10]))).1.in_string = false ∧
    (runFrom cfg s (35 :: (cs ++ [10]))).1.indent_level = s.indent_level ∧
    (runFrom cfg s (35 :: cs)).2 = pendNL cfg s s.indent_level ++ 35 :: cs := by
  have hrun : runFrom cfg { s with in_comment := true, newline_requested := false } cs
      = ({ s with in_comment := true, newline_requested := false }, cs) :=
    runFrom_comment cfg cs _ rfl h3
  have hstep10 : step cfg { s with in_comment := true, newline_requested := false } 10
      = ({ s with newline_requested := false, in_comment := false }, [10]) :=
    step_comment_newline cfg { s with in_comment := true, newline_requested := false } rfl h1
  refine ⟨?_, ?_, ?_, ?_, ?_⟩ <;>
    simp only [runFrom_cons, runFrom_nil, runFrom_append,
      step_hash cfg s h1 h2, hrun, hstep10] <;>
    simp [h1]

/-- Witness for C5 at a concrete input: a hash, the byte 99, and the
terminating newline are reproduced exactly from the fresh state. -/
theorem c5_comment_preservation_witness :
    (runFrom Indentation.Default initState (35 :: ([99] ++ [10]))).2
      = pendNL Indentation.Default initState initState.indent_level
          ++ 35 :: ([99] ++ [10]) :=
  (c5_comment_preservation Indentation.Default initState [99] rfl rfl (by decide)).1

/-- Count of opening brackets and braces handled while in normal mode
(outside strings and comments) during a run from a given state. -/
def openers_seen (cfg : Indentation) : FmtState → List Nat → Nat
  | _, [] => 0
  | s, c :: cs =>
    (if s.in_comment = false ∧ s.in_string = false ∧ (c = 91 ∨ c = 123) then 1 else 0)
      + openers_seen cfg (step cfg s c).1 cs

/-- Count of closing brackets and braces handled while in normal mode
(outside strings and comments) during a run from a given state. -/
def closers_seen (cfg : Indentation) : FmtState → List Nat → Nat
  | _, [] => 0
  | s, c :: cs =>
    (if s.in_comment = false ∧ s.in_string = false ∧ (c = 93 ∨ c = 125) then 1 else 0)
      + closers_seen cfg (step cfg s c).1 cs

theorem openers_seen_cons (cfg : Indentation) (s : FmtState) (c : Nat) (cs : List Nat) :
    openers_seen cfg s (c :: cs)
      = (if s.in_comment = false ∧ s.in_string = false ∧ (c = 91 ∨ c = 123) then 1 else 0)
          + openers_seen cfg (step cfg s c).1 cs := rfl

theorem closers_seen_cons (cfg : Indentation) (s : FmtState) (c : Nat) (cs : List Nat) :
    closers_seen cfg s (c :: cs)
      = (if s.in_comment = false ∧ s.in_string = false ∧ (c = 93 ∨ c = 125) then 1 else 0)
          + closers_seen cfg (step cfg s c).1 cs := rfl

/-- The indent level moves by exactly the bracket delta of the byte:
up by one on a normal-mode opener, down by one (saturating) on a
normal-mode closer, unchanged otherwise. -/
theorem step_indent_level (cfg : Indentation) (s : FmtState) (c : Nat) :
    (step cfg s c).1.indent_level =
      if s.in_comment = false ∧ s.in_string = false ∧ (c = 91 ∨ c = 123) then
        s.indent_level + 1
      else if s.in_comment = false ∧ s.in_string = false ∧ (c = 93 ∨ c = 125) then
        s.indent_level - 1
      else s.indent_level := by
  unfold step stepSN normalStep stringStep
  split_ifs <;> simp_all

theorem step_normal (cfg : Indentation) (s : FmtState) (c : Nat)
    (h1 : s.in_string = false) (h2 : s.in_comment = false) :
    step cfg s c = normalStep cfg s c := by
  unfold step stepSN
  rw [h1, h2]
  simp

theorem normalStep_nl (cfg : Indentation) (s : FmtState) :
    normalStep cfg s 10 = (s, []) := rfl

theorem normalStep_hash (cfg : Indentation) (s : FmtState) :
    normalStep cfg s 35 =
      ({ s with in_comment := true, newline_requested := false },
        pendNL cfg s s.indent_level ++ [35]) := rfl

theorem normalStep_quote (cfg : Indentation) (s : FmtState) :
    normalStep cfg s 34 =
      ({ s with in_string := true, newline_requested := false },
        pendNL cfg s s.indent_level ++ [34]) := rfl

theorem normalStep_colon (cfg : Indentation) (s : FmtState) :
    normalStep cfg s 58 =
      ({ s with newline_requested := false },
        [58, 32] ++ pendNL cfg s s.indent_level) := rfl

theorem normalStep_comma (cfg : Indentation) (s : FmtState) :
    normalStep cfg s 44 =
      ({ s with newline_requested := true },
        pendNL cfg s s.indent_level ++ [44]) := rfl

theorem normalStep_opener (cfg : Indentation) (s : FmtState) (c : Nat)
    (h : c = 91 ∨ c = 123) :
    normalStep cfg s c =
      ({ s with indent_level := s.indent_level + 1, newline_requested := true },
        pendNL cfg s (s.indent_level + 1) ++ [c]) := by
  rcases h with h | h <;> subst h <;> rfl

theorem normalStep_closer (cfg : Indentation) (s : FmtState) (c : Nat)
    (h : c = 93 ∨ c = 125) :
    normalStep cfg s c =
      ({ s with indent_level := s.indent_level - 1, newline_requested := false },
        (if s.newline_requested = true then []
         else 10 :: indent_buffered cfg (s.indent_level - 1))
          ++ pendNL cfg s (s.indent_level - 1) ++ [c]) := by
  rcases h with h | h <;> subst h <;> rfl

theorem normalStep_other (cfg : Indentation) (s : FmtState) (c : Nat)
    (h10 : ¬c = 10) (h35 : ¬c = 35) (h34 : ¬c = 34)
    (hop : ¬(c = 91 ∨ c = 123)) (hcl : ¬(c = 93 ∨ c = 125))
    (h58 : ¬c = 58) (h44 : ¬c = 44) :
    normalStep cfg s c =
      ({ s with newline_requested := false },
        pendNL cfg s s.indent_level ++ [c]) := by
  unfold normalStep
  rw [if_neg h10, if_neg h35, if_neg h34, if_neg hop, if_neg hcl, if_neg h58, if_neg h44]

/-- Whenever a synthetic newline byte appears in the output of a
normal-mode step, it is followed there by exactly the rendered indent at
the updated depth of that step. -/
theorem step_synthetic_emission (cfg : Indentation) (s : FmtState) (c : Nat)
    (hcom : s.in_comment = false) (hstr : s.in_string = false)
    (hmem : 10 ∈ (step cfg s c).2) :
    ∃ a b, (step cfg s c).2
      = a ++ 10 :: (indent_buffered cfg (step cfg s c).1.indent_level ++ b) := by
  rw [step_normal cfg s c hstr hcom] at hmem ⊢
  by_cases h10 : c = 10
  · subst h10
    rw [normalStep_nl] at hmem
    simp at hmem
  by_cases hop : c = 91 ∨ c = 123
  · rw [normalStep_opener cfg s c hop] at hmem ⊢
    unfold pendNL at hmem ⊢
    by_cases hnr : s.newline_requested = true
    · refine ⟨[], [c], ?_⟩
      simp [hnr]
    · rw [if_neg hnr] at hmem
      simp at hmem
      rcases hop with h | h <;> omega
  by_cases hcl : c = 93 ∨ c = 125
  · rw [normalStep_closer cfg s c hcl] at hmem ⊢
    unfold pendNL at hmem ⊢
    by_cases hnr : s.newline_requested = true
    · refine ⟨[], [c], ?_⟩
      simp [hnr]
    · refine ⟨[], [c], ?_⟩
      simp [hnr]
  by_cases h58 : c = 58
  · subst h58
    rw [normalStep_colon] at hmem ⊢
    unfold pendNL at hmem ⊢
    by_cases hnr : s.newline_requested = true
    · refine ⟨[58, 32], [], ?_⟩
      simp [hnr]
    · rw [if_neg hnr] at hmem
      simp at hmem
  by_cases h44 : c = 44
  · subst h44
    rw [normalStep_comma] at hmem ⊢
    unfold pendNL at hmem ⊢
    by_cases hnr : s.newline_requested = true
    · refine ⟨[], [44], ?_⟩
      simp [hnr]
    · rw [if_neg hnr] at hmem
      simp at hmem
  by_cases h35 : c = 35
  · subst h35
    rw [normalStep_hash] at hmem ⊢
    unfold pendNL at hmem ⊢
    by_cases hnr : s.newline_requested = true
    · refine ⟨[], [35], ?_⟩
      simp [hnr]
    · rw [if_neg hnr] at hmem
      simp at hmem
  by_cases h34 : c = 34
  · subst h34
    rw [normalStep_quote] at hmem ⊢
    unfold pendNL at hmem ⊢
    by_cases hnr : s.newline_requested = true
    · refine ⟨[], [34], ?_⟩
      simp [hnr]
    · rw [if_neg hnr] at hmem
      simp at hmem
  · rw [normalStep_other cfg s c h10 h35 h34 hop hcl h58 h44] at hmem ⊢
    unfold pendNL at hmem ⊢
    by_cases hnr : s.newline_requested = true
    · refine ⟨[], [c], ?_⟩
      simp [hnr]
    · rw [if_neg hnr] at hmem
      simp at hmem
      exact absurd hmem.symm h10

/-- If no prefix of the run sees more normal-mode closers than the
starting depth plus its normal-mode openers, the final depth is the
starting depth plus openers minus closers. -/
theorem runFrom_indent_track (cfg : Indentation) :
    ∀ (cs : List Nat) (s : FmtState),
      (∀ n, n ≤ cs.length →
        closers_seen cfg s (cs.take n)
          ≤ s.indent_level + openers_seen cfg s (cs.take n)) →
      (runFrom cfg s cs).1.indent_level
        = s.indent_level + openers_seen cfg s cs - closers_seen cfg s cs := by
  intro cs
  induction cs with
  | nil => intro s _; simp [openers_seen, closers_seen]
  | cons c cs ih =>
    intro s H
    have h1 := H 1 (by simp)
    simp only [List.take_succ_cons, List.take_zero, openers_seen_cons, closers_seen_cons,
      openers_seen, closers_seen, Nat.add_zero] at h1
    have hstep := step_indent_level cfg s c
    have hA : ∀ n, n ≤ cs.length →
        closers_seen cfg (step cfg s c).1 (cs.take n)
          ≤ (step cfg s c).1.indent_level
              + openers_seen cfg (step cfg s c).1 (cs.take n) := by
      intro n hn
      have h2 := H (n + 1) (by simpa using hn)
      simp only [List.take_succ_cons, openers_seen_cons, closers_seen_cons] at h2
      rw [hstep]
      split_ifs at h1 h2 ⊢ <;> omega
    have htop := hA cs.length (Nat.le_refl _)
    rw [List.take_length] at htop
    have hrec := ih (step cfg s c).1 hA
    rw [runFrom_cons]
    simp only [openers_seen_cons, closers_seen_cons]
    rw [hstep] at htop hrec
    split_ifs at h1 htop hrec ⊢ <;> omega

/-- Claim C6 counterexample.  The claim states that `indent_level`
always equals the number of normal-mode openers minus closers seen so
far, clamped at zero.  After the two-byte input consisting of a closing
bracket (93) then an opening bracket (91), the clamped difference is
one minus one, i.e. zero, but the saturating decrement already absorbed
the excess closer, so the opener pushes `indent_level` to one. -/
theorem c6_depth_counterexample :
    (runFrom Indentation.Default initState [93, 91]).1.indent_level = 1 ∧
    openers_seen Indentation.Default initState [93, 91]
        - closers_seen Indentation.Default initState [93, 91] = 0 := by decide

/-- Claim C6, amended.  For inputs in which no prefix sees more
normal-mode closers than openers, `indent_level` equals openers minus
closers at every point of the run (the clamp never engages); and
whenever a synthetic newline byte appears in the output of a
normal-mode step, it is followed by exactly the rendered indent at the
updated depth of that step. -/
theorem c6_depth_consistency (cfg : Indentation) (cs : List Nat)
    (H : ∀ n, n ≤ cs.length →
      closers_seen cfg initState (cs.take n) ≤ openers_seen cfg initState (cs.take n)) :
    (∀ n, n ≤ cs.length →
      (runFrom cfg initState (cs.take n)).1.indent_level
        = openers_seen cfg initState (cs.take n)
            - closers_seen cfg initState (cs.take n)) ∧
    (∀ (s : FmtState) (c : Nat), s.in_comment = false → s.in_string = false →
      10 ∈ (step cfg s c).2 →
      ∃ a b, (step cfg s c).2
        = a ++ 10 :: (indent_buffered cfg (step cfg s c).1.indent_level ++ b)) := by
  constructor
  · intro n hn
    have hH : ∀ m, m ≤ (cs.take n).length →
        closers_seen cfg initState ((cs.take n).take m)
          ≤ initState.indent_level + openers_seen cfg initState ((cs.take n).take m) := by
      intro m hm
      rw [List.take_take]
      have hmn : min m n = m := by
        rw [List.length_take] at hm
        omega
      rw [hmn]
      have hmlen : m ≤ cs.length := by
        rw [List.length_take] at hm
        omega
      simpa [initState] using H m hmlen
    have := runFrom_indent_track cfg (cs.take n) initState hH
    simpa [initState] using this
  · intro s c hcom hstr hmem
    exact step_synthetic_emission cfg s c hcom hstr hmem

/-- Witness for C6 at a concrete input: an opener, a plain byte, and a
matching closer keep the depth equal to openers minus closers at every
prefix. -/
theorem c6_depth_consistency_witness :
    (runFrom Indentation.Default initState (List.take 2 [91, 120, 93])).1.indent_level
      = openers_seen Indentation.Default initState (List.take 2 [91, 120, 93])
          - closers_seen Indentation.Default initState (List.take 2 [91, 120, 93]) :=
  (c6_depth_consistency Indentation.Default [91, 120, 93] (by decide)).1 2 (by decide)

theorem format_nu_buffered_ok {E : Type} (cfg : Indentation) :
    ∀ (cs : List Nat) (s : FmtState),
      format_nu_buffered cfg s (cs.map (Except.ok : Nat → Except E Nat))
        = ((runFrom cfg s cs).2, none) := by
  intro cs
  induction cs with
  | nil => intro s; rfl
  | cons c cs ih =>
    intro s
    simp only [List.map_cons, format_nu_buffered, runFrom_cons, ih]

theorem format_nu_buffered_err {E : Type} (cfg : Indentation) :
    ∀ (cs : List Nat) (s : FmtState) (e : E) (rest : List (Except E Nat)),
      format_nu_buffered cfg s (cs.map Except.ok ++ Except.error e :: rest)
        = ((runFrom cfg s cs).2, some e) := by
  intro cs
  induction cs with
  | nil =>
    intro s e rest
    simp only [List.map_nil, List.nil_append, format_nu_buffered]
    rfl
  | cons c cs ih =>
    intro s e rest
    simp only [List.map_cons, List.cons_append, format_nu_buffered, List.append_eq,
      runFrom_cons, ih]

/-- Claim C7.  The only failure kind is a failing read or write of the
underlying streams: over a fully readable input the pass always
succeeds, whatever the nesting — it yields exactly the pure formatting
output and no error; a normal-mode closer met at depth zero is absorbed
silently (the saturating decrement keeps the depth at zero and the
closer byte is still echoed, preceded only by its synthetic newline with
zero indent units); and a failing read aborts the pass at once,
surfacing the failure as-is, ignoring everything after it and leaving
in the output exactly what the already-consumed prefix produced. -/
theorem c7_error_handling :
    (∀ (E : Type) (cfg : Indentation) (cs : List Nat),
       format_nu_buffered cfg initState (cs.map (Except.ok : Nat → Except E Nat))
         = (format_nu cs cfg, none)) ∧
    (∀ (cfg : Indentation) (s : FmtState) (c : Nat),
       s.in_comment = false → s.in_string = false → s.indent_level = 0 →
       (c = 93 ∨ c = 125) →
       (step cfg s c).1.indent_level = 0 ∧ (step cfg s c).2 = [10, c]) ∧
    (∀ (E : Type) (cfg : Indentation) (cs : List Nat) (e : E)
       (rest : List (Except E Nat)),
       format_nu_buffered cfg initState (cs.map Except.ok ++ Except.error e :: rest)
         = (format_nu cs cfg, some e)) := by
  refine ⟨?_, ?_, ?_⟩
  · intro E cfg cs
    exact format_nu_buffered_ok cfg cs initState
  · intro cfg s c hcom hstr hlvl hcl
    rw [step_normal cfg s c hstr hcom, normalStep_closer cfg s c hcl]
    constructor
    · simp [hlvl]
    · unfold pendNL
      by_cases hnr : s.newline_requested = true <;>
        simp [hnr, hlvl, indent_buffered]
  · intro E cfg cs e rest
    exact format_nu_buffered_err cfg cs initState e rest

/-- Witness for C7 at a concrete input: a closing bracket met at depth
zero from the fresh state keeps the depth at zero and is echoed after a
bare synthetic newline. -/
theorem c7_error_handling_witness :
    (step Indentation.Default initState 93).1.indent_level = 0 ∧
    (step Indentation.Default initState 93).2 = [10, 93] :=
  c7_error_handling.2.1 Indentation.Default initState 93 rfl rfl rfl (Or.inl rfl)

/-- Claim C8 counterexample.  The claim states that when the previous
byte left the pending-newline flag set, the synthetic newline plus
indent is written before any byte emitted on behalf of the current byte,
including, for a colon, the colon and its synthesized space.  In the
code the colon arm writes the colon and the space inside the match,
before the pending-newline block: from a normal-mode state at depth one
with the flag set, the output of handling a colon (58) starts with the
colon, then the space, and only then the newline and indent; end to end,
formatting an opening brace followed by a colon shows the same order. -/
theorem c8_order_counterexample :
    (step Indentation.Default
        { escaped := false, in_string := false, indent_level := 1,
          newline_requested := true, in_comment := false } 58).2
      = [58, 32, 10, 32, 32] ∧
    (step Indentation.Default
        { escaped := false, in_string := false, indent_level := 1,
          newline_requested := true, in_comment := false } 58).2.head? = some 58 ∧
    format_nu [123, 58] Indentation.Default = [123, 58, 32, 10, 32, 32] := by decide

/-- Claim C8, amended.  For every byte handled in normal mode while the
pending-newline flag is set: a raw newline is discarded with no output
at all and leaves the flag set; a colon emits the colon and its
synthesized space first and the pending newline plus indent after them,
clearing the flag; every other byte has the pending newline plus indent
at the updated depth written before its echo, and afterwards the flag is
set exactly for openers and commas. -/
theorem c8_transition_order (cfg : Indentation) (s : FmtState) (c : Nat)
    (hstr : s.in_string = false) (hcom : s.in_comment = false)
    (hnr : s.newline_requested = true) :
    (c = 10 → (step cfg s c).2 = [] ∧ (step cfg s c).1.newline_requested = true) ∧
    (c = 58 → (step cfg s c).2
        = 58 :: 32 :: 10 :: indent_buffered cfg (step cfg s c).1.indent_level ∧
      (step cfg s c).1.newline_requested = false) ∧
    (¬c = 10 → ¬c = 58 →
      (step cfg s c).2
          = 10 :: (indent_buffered cfg (step cfg s c).1.indent_level ++ [c]) ∧
      ((step cfg s c).1.newline_requested = true ↔ (c = 91 ∨ c = 123 ∨ c = 44))) := by
  rw [step_normal cfg s c hstr hcom]
  refine ⟨?_, ?_, ?_⟩
  · intro h10
    subst h10
    rw [normalStep_nl]
    exact ⟨rfl, hnr⟩
  · intro h58
    subst h58
    rw [normalStep_colon]
    unfold pendNL
    simp [hnr]
  · intro h10 h58
    by_cases hop : c = 91 ∨ c = 123
    · rw [normalStep_opener cfg s c hop]
      unfold pendNL
      simp [hnr]
      omega
    by_cases hcl : c = 93 ∨ c = 125
    · rw [normalStep_closer cfg s c hcl]
      unfold pendNL
      simp [hnr]
      omega
    by_cases h35 : c = 35
    · subst h35
      rw [normalStep_hash]
      unfold pendNL
      simp [hnr]
    by_cases h34 : c = 34
    · subst h34
      rw [normalStep_quote]
      unfold pendNL
      simp [hnr]
    by_cases h44 : c = 44
    · subst h44
      rw [normalStep_comma]
      unfold pendNL
      simp [hnr]
    · rw [normalStep_other cfg s c h10 h35 h34 hop hcl h58 h44]
      unfold pendNL
      simp [hnr]
      omega

/-- Witness for C8 at a concrete input: from a normal-mode state at
depth one with the flag set, a plain byte (97) is echoed after the
pending newline and its indent. -/
theorem c8_transition_order_witness :
    (step Indentation.Default
        { escaped := false, in_string := false, indent_level := 1,
          newline_requested := true, in_comment := false } 97).2
      = 10 :: (indent_buffered Indentation.Default
          (step Indentation.Default
            { escaped := false, in_string := false, indent_level := 1,
              newline_requested := true, in_comment := false } 97).1.indent_level
            ++ [97]) :=
  ((c8_transition_order Indentation.Default
      { escaped := false, in_string := false, indent_level := 1,
        newline_requested := true, in_comment := false } 97 rfl rfl rfl).2.2
    (by decide) (by decide)).1

/-- Claim C9.  Concrete scenario correctness with the default two-space
indentation: the object input brace, quote, 97, quote, colon, 48, brace
formats to a brace, a newline, two spaces, the quoted key, the colon
followed by exactly one synthesized space, the value, a newline and the
closing brace; and the array input formats with each comma echoed as-is
and each following element on its own indented line. -/
theorem c9_scenarios :
    format_nu [123, 34, 97, 34, 58, 48, 125] Indentation.Default
        = [123, 10, 32, 32, 34, 97, 34, 58, 32, 48, 10, 125] ∧
    format_nu [91, 49, 44, 50, 44, 110, 117, 108, 108, 93] Indentation.Default
        = [91, 10, 32, 32, 49, 44, 10, 32, 32, 50, 44, 10, 32, 32,
           110, 117, 108, 108, 10, 93] := by decide

/-- A UTF-8 continuation byte. -/
def isCont (b : Nat) : Prop := 128 ≤ b ∧ b ≤ 191

/-- Lower bound for the second byte of a three-byte UTF-8 sequence
(excludes overlong encodings after a 224 lead). -/
def lo3 (c : Nat) : Nat := if c = 224 then 160 else 128

/-- Upper bound for the second byte of a three-byte UTF-8 sequence
(excludes surrogates after a 237 lead). -/
def hi3 (c : Nat) : Nat := if c = 237 then 159 else 191

/-- Lower bound for the second byte of a four-byte UTF-8 sequence
(excludes overlong encodings after a 240 lead). -/
def lo4 (c : Nat) : Nat := if c = 240 then 144 else 128

/-- Upper bound for the second byte of a four-byte UTF-8 sequence
(excludes code points past the last plane after a 244 lead). -/
def hi4 (c : Nat) : Nat := if c = 244 then 143 else 191

/-- A byte list that is a valid UTF-8 encoding: a sequence of one- to
four-byte characters with the lead and continuation ranges enforced by
the standard (and by the string conversion the in-memory wrapper of the
source performs on its output buffer). -/
inductive Utf8Chars : List Nat → Prop where
  | nil : Utf8Chars []
  | one {c : Nat} {cs : List Nat} : c < 128 → Utf8Chars cs → Utf8Chars (c :: cs)
  | two {c c1 : Nat} {cs : List Nat} :
      194 ≤ c → c ≤ 223 → isCont c1 → Utf8Chars cs → Utf8Chars (c :: c1 :: cs)
  | three {c c1 c2 : Nat} {cs : List Nat} :
      224 ≤ c → c ≤ 239 → lo3 c ≤ c1 → c1 ≤ hi3 c → isCont c2 →
      Utf8Chars cs → Utf8Chars (c :: c1 :: c2 :: cs)
  | four {c c1 c2 c3 : Nat} {cs : List Nat} :
      240 ≤ c → c ≤ 244 → lo4 c ≤ c1 → c1 ≤ hi4 c → isCont c2 → isCont c3 →
      Utf8Chars cs → Utf8Chars (c :: c1 :: c2 :: c3 :: cs)

/-- The indentation unit is a valid UTF-8 string: trivially so for the
default two spaces, and by the source's string type for a custom unit. -/
def UnitValid : Indentation → Prop
  | Indentation.Default => True
  | Indentation.Custom u => Utf8Chars u

theorem Utf8Chars.append {a b : List Nat} (ha : Utf8Chars a) (hb : Utf8Chars b) :
    Utf8Chars (a ++ b) := by
  induction ha with
  | nil => simpa using hb
  | one h _ ih => exact Utf8Chars.one h ih
  | two h1 h2 h3 _ ih => exact Utf8Chars.two h1 h2 h3 ih
  | three h1 h2 h3 h4 h5 _ ih => exact Utf8Chars.three h1 h2 h3 h4 h5 ih
  | four h1 h2 h3 h4 h5 h6 _ ih => exact Utf8Chars.four h1 h2 h3 h4 h5 h6 ih

theorem utf8_ascii {l : List Nat} (h : ∀ x ∈ l, x < 128) : Utf8Chars l := by
  induction l with
  | nil => exact Utf8Chars.nil
  | cons c cs ih =>
    exact Utf8Chars.one (h c (List.mem_cons_self c cs))
      (ih (fun x hx => h x (List.mem_cons_of_mem c hx)))

theorem utf8_indent_buffered (cfg : Indentation) (hu : UnitValid cfg) :
    ∀ n, Utf8Chars (indent_buffered cfg n) := by
  intro n
  induction n with
  | zero => exact Utf8Chars.nil
  | succ n ih =>
    refine Utf8Chars.append ?_ ih
    cases cfg with
    | Default => exact utf8_ascii (by decide)
    | Custom u => exact hu

theorem utf8_pendNL (cfg : Indentation) (hu : UnitValid cfg) (s : FmtState) (lvl : Nat) :
    Utf8Chars (pendNL cfg s lvl) := by
  unfold pendNL
  split
  · exact Utf8Chars.one (by omega) (utf8_indent_buffered cfg hu lvl)
  · exact Utf8Chars.nil

theorem utf8_single {c : Nat} (h : c < 128) : Utf8Chars [c] :=
  Utf8Chars.one h Utf8Chars.nil

/-- Any single loop iteration on an ASCII byte writes a valid UTF-8
chunk: everything it writes is either the echoed ASCII byte, synthesized
ASCII bytes, or whole repetitions of the indentation unit. -/
theorem utf8_step_ascii (cfg : Indentation) (s : FmtState) (c : Nat)
    (hu : UnitValid cfg) (hc : c < 128) : Utf8Chars (step cfg s c).2 := by
  by_cases hcom : s.in_comment = true
  · by_cases h10 : c = 10
    · subst h10
      by_cases hstr : s.in_string = true
      · have hout : (step cfg s 10).2 = [10, 10] := by
          unfold step stepSN stringStep
          simp [hcom, hstr]
        rw [hout]
        exact utf8_ascii (by decide)
      · have hstr' : s.in_string = false := by simpa using hstr
        rw [step_comment_newline cfg s hcom hstr']
        exact utf8_single (by omega)
    · rw [step_comment_echo cfg s c hcom h10]
      exact utf8_single hc
  · have hcom' : s.in_comment = false := by simpa using hcom
    by_cases hstr : s.in_string = true
    · rw [step_of_in_string cfg s c hstr hcom', stringStep_out]
      exact utf8_single hc
    · have hstr' : s.in_string = false := by simpa using hstr
      rw [step_normal cfg s c hstr' hcom']
      by_cases h10 : c = 10
      · subst h10
        rw [normalStep_nl]
        exact Utf8Chars.nil
      by_cases hop : c = 91 ∨ c = 123
      · rw [normalStep_opener cfg s c hop]
        exact (utf8_pendNL cfg hu s _).append (utf8_single hc)
      by_cases hcl : c = 93 ∨ c = 125
      · rw [normalStep_closer cfg s c hcl]
        refine Utf8Chars.append
          (Utf8Chars.append ?_ (utf8_pendNL cfg hu s _)) (utf8_single hc)
        split
        · exact Utf8Chars.nil
        · exact Utf8Chars.one (by omega) (utf8_indent_buffered cfg hu _)
      by_cases h58 : c = 58
      · subst h58
        rw [normalStep_colon]
        exact (utf8_ascii (by decide)).append (utf8_pendNL cfg hu s _)
      by_cases h35 : c = 35
      · subst h35
        rw [normalStep_hash]
        exact (utf8_pendNL cfg hu s _).append (utf8_single (by omega))
      by_cases h34 : c = 34
      · subst h34
        rw [normalStep_quote]
        exact (utf8_pendNL cfg hu s _).append (utf8_single (by omega))
      by_cases h44 : c = 44
      · subst h44
        rw [normalStep_comma]
        exact (utf8_pendNL cfg hu s _).append (utf8_single (by omega))
      · rw [normalStep_other cfg s c h10 h35 h34 hop hcl h58 h44]
        exact (utf8_pendNL cfg hu s _).append (utf8_single hc)

/-- The block of synthesized bytes that can precede the echo of a
non-ASCII byte: the pending newline and indent, present only in normal
mode with the flag set. -/
def hiBlock (cfg : Indentation) (s : FmtState) : List Nat :=
  if s.in_comment = false ∧ s.in_string = false ∧ s.newline_requested = true
  then 10 :: indent_buffered cfg s.indent_level else []

/-- A state that emits nothing before echoing a non-ASCII byte: inside
a comment, inside a string, or in normal mode with no pending newline. -/
def quiet (s : FmtState) : Prop :=
  s.in_comment = true ∨ s.in_string = true ∨ s.newline_requested = false

theorem utf8_hiBlock (cfg : Indentation) (hu : UnitValid cfg) (s : FmtState) :
    Utf8Chars (hiBlock cfg s) := by
  unfold hiBlock
  split
  · exact Utf8Chars.one (by omega) (utf8_indent_buffered cfg hu _)
  · exact Utf8Chars.nil

/-- A non-ASCII byte is always echoed verbatim, preceded at most by the
pending newline-plus-indent block, and the resulting state is quiet, so
the remaining bytes of a multi-byte character are echoed bare. -/
theorem step_hi (cfg : Indentation) (s : FmtState) (c : Nat) (hc : 128 ≤ c) :
    (step cfg s c).2 = hiBlock cfg s ++ [c] ∧ quiet (step cfg s c).1 := by
  have h10 : ¬c = 10 := by omega
  by_cases hcom : s.in_comment = true
  · rw [step_comment_echo cfg s c hcom h10]
    constructor
    · unfold hiBlock
      rw [if_neg (by simp [hcom])]
      rfl
    · exact Or.inl hcom
  · have hcom' : s.in_comment = false := by simpa using hcom
    by_cases hstr : s.in_string = true
    · rw [step_of_in_string cfg s c hstr hcom']
      have h34 : ¬(c = 34 ∧ s.escaped = false) := by
        rintro ⟨h, _⟩
        omega
      have h92 : ¬(c = 92 ∧ s.escaped = false) := by
        rintro ⟨h, _⟩
        omega
      unfold stringStep
      rw [if_neg h34, if_neg h92]
      constructor
      · unfold hiBlock
        rw [if_neg (by simp [hstr])]
        rfl
      · exact Or.inr (Or.inl hstr)
    · have hstr' : s.in_string = false := by simpa using hstr
      rw [step_normal cfg s c hstr' hcom']
      have h35 : ¬c = 35 := by omega
      have h34 : ¬c = 34 := by omega
      have hop : ¬(c = 91 ∨ c = 123) := by omega
      have hcl : ¬(c = 93 ∨ c = 125) := by omega
      have h58 : ¬c = 58 := by omega
      have h44 : ¬c = 44 := by omega
      rw [normalStep_other cfg s c h10 h35 h34 hop hcl h58 h44]
      constructor
      · unfold hiBlock pendNL
        by_cases hnr : s.newline_requested = true
        · rw [if_pos hnr, if_pos ⟨hcom', hstr', hnr⟩]
        · rw [if_neg hnr, if_neg (fun h => hnr h.2.2)]
      · exact Or.inr (Or.inr rfl)

/-- From a quiet state a non-ASCII byte is echoed bare, and the state
stays quiet. -/
theorem step_hi_quiet (cfg : Indentation) (s : FmtState) (c : Nat)
    (hc : 128 ≤ c) (hq : quiet s) :
    (step cfg s c).2 = [c] ∧ quiet (step cfg s c).1 := by
  obtain ⟨hout, hq'⟩ := step_hi cfg s c hc
  refine ⟨?_, hq'⟩
  rw [hout]
  unfold hiBlock
  rcases hq with h | h | h <;> rw [if_neg (by simp [h])] <;> rfl

/-- Running the engine over a valid UTF-8 byte list from any state
writes a valid UTF-8 byte list: multi-byte characters are echoed
contiguously (their lead byte quiets the state), dropped bytes are
single ASCII newlines, and every synthesized block is ASCII or whole
repetitions of the (valid) indentation unit. -/
theorem utf8_runFrom (cfg : Indentation) (hu : UnitValid cfg) :
    ∀ {cs : List Nat}, Utf8Chars cs → ∀ s : FmtState,
      Utf8Chars (runFrom cfg s cs).2 := by
  intro cs h
  induction h with
  | nil => intro s; exact Utf8Chars.nil
  | one hc _ ih =>
    intro s
    simp only [runFrom_cons]
    exact (utf8_step_ascii cfg s _ hu hc).append (ih _)
  | two h1 h2 h3 htl ih =>
    rename_i c c1 cs
    intro s
    simp only [runFrom_cons]
    obtain ⟨hout0, hq0⟩ := step_hi cfg s c (by omega)
    obtain ⟨hout1, _⟩ := step_hi_quiet cfg (step cfg s c).1 c1 h3.1 hq0
    rw [hout0, hout1]
    simp only [List.append_assoc, List.singleton_append]
    exact (utf8_hiBlock cfg hu s).append (Utf8Chars.two h1 h2 h3 (ih _))
  | three h1 h2 h3 h4 h5 htl ih =>
    rename_i c c1 c2 cs
    intro s
    simp only [runFrom_cons]
    obtain ⟨hout0, hq0⟩ := step_hi cfg s c (by omega)
    obtain ⟨hout1, hq1⟩ := step_hi_quiet cfg (step cfg s c).1 c1
      (by unfold lo3 at h3; split at h3 <;> omega) hq0
    obtain ⟨hout2, _⟩ := step_hi_quiet cfg (step cfg (step cfg s c).1 c1).1 c2 h5.1 hq1
    rw [hout0, hout1, hout2]
    simp only [List.append_assoc, List.singleton_append]
    exact (utf8_hiBlock cfg hu s).append (Utf8Chars.three h1 h2 h3 h4 h5 (ih _))
  | four h1 h2 h3 h4 h5 h6 htl ih =>
    rename_i c c1 c2 c3 cs
    intro s
    simp only [runFrom_cons]
    obtain ⟨hout0, hq0⟩ := step_hi cfg s c (by omega)
    obtain ⟨hout1, hq1⟩ := step_hi_quiet cfg (step cfg s c).1 c1
      (by unfold lo4 at h3; split at h3 <;> omega) hq0
    obtain ⟨hout2, hq2⟩ := step_hi_quiet cfg (step cfg (step cfg s c).1 c1).1 c2 h5.1 hq1
    obtain ⟨hout3, _⟩ := step_hi_quiet cfg
      (step cfg (step cfg (step cfg s c).1 c1).1 c2).1 c3 h6.1 hq2
    rw [hout0, hout1, hout2, hout3]
    simp only [List.append_assoc, List.singleton_append]
    exact (utf8_hiBlock cfg hu s).append (Utf8Chars.four h1 h2 h3 h4 h5 h6 (ih _))

/-- Claim C10.  Formatting over in-memory buffers cannot panic: the
engine is a total function of the input bytes, and the byte list it
produces is a valid UTF-8 encoding whenever the input is and the custom
indentation unit (a string in the source) is — every output byte is
either a byte copied from the input, with multi-byte characters copied
contiguously, or an inserted ASCII byte or whole indentation unit, and
only ASCII newline bytes are ever dropped, so the string conversion the
wrapper performs on the output buffer succeeds. -/
theorem c10_utf8_safety (cfg : Indentation) (nu : List Nat)
    (hu : UnitValid cfg) (hnu : Utf8Chars nu) : Utf8Chars (format_nu nu cfg) :=
  utf8_runFrom cfg hu hnu initState

/-- Witness for C10 at a concrete input: formatting the two brace bytes
yields a valid UTF-8 byte list. -/
theorem c10_utf8_safety_witness : Utf8Chars (format_nu [123, 125] Indentation.Default) :=
  c10_utf8_safety Indentation.Default [123, 125] trivial
    (Utf8Chars.one (by omega) (Utf8Chars.one (by omega) Utf8Chars.nil))
